import Mathlib

/-!
Verification development for the k-space explorer engine (`src/kspace.py`,
class `ImageManipulators`).  The numeric filter methods of that class are
embedded as pure Lean functions.  Floating-point scalars are modelled as
exact rationals (`ℚ`); complex k-space samples are modelled as pairs
`(re, im) : ℚ × ℚ`; the centred FFT pair `np_fft`/`np_ifft` is modelled
exactly over `ℂ`.  Python-specific numeric conventions (truncation by
`int(...)`, banker's rounding by `round(...)`, slice clamping) are embedded
explicitly so that the index arithmetic of the source is preserved.
-/

/-- Python `int(q)`: truncation of a real scalar toward zero. -/
def pyTrunc (q : ℚ) : ℤ := if 0 ≤ q then ⌊q⌋ else -⌊-q⌋

/-- Python `round(q)`: round half to even (banker's rounding). -/
def pyRound (q : ℚ) : ℤ :=
  let f := ⌊q⌋
  let r := q - (f : ℚ)
  if r < 1/2 then f
  else if (1:ℚ)/2 < r then f + 1
  else if f % 2 = 0 then f else f + 1

/-- Start index denoted by the Python slice `a[s:]` on a buffer of `size`
elements: negative `s` counts from the end and is clamped at `0`. -/
def pyStart (size : ℕ) (s : ℤ) : ℕ := if s < 0 then ((size : ℤ) + s).toNat else s.toNat

/-- A complex k-space sample, `(real part, imaginary part)`, with float
values modelled as exact rationals (numpy `complex64` entries). -/
abbrev Cq : Type := ℚ × ℚ

/-- The complex zero sample. -/
def czero : Cq := (0, 0)

/-- Complex conjugation on samples, `np.conj`. -/
def conjq (z : Cq) : Cq := (z.1, -z.2)

/-- Scaling a sample by a real scalar. -/
def cscale (a : ℚ) (z : Cq) : Cq := (a * z.1, a * z.2)

/-- Adding two samples. -/
def cadd (z w : Cq) : Cq := (z.1 + w.1, z.2 + w.2)

/-- Squared magnitude of a sample (square of `np.abs`). -/
def magSq (z : Cq) : ℚ := z.1 * z.1 + z.2 * z.2

/-- A 2D complex k-space buffer of `m` rows and `n` columns. -/
abbrev KMat (m n : ℕ) : Type := Fin m → Fin n → Cq

/-- A 2D real buffer (e.g. the float image). -/
abbrev QMat (m n : ℕ) : Type := Fin m → Fin n → ℚ

/-- Embedding of `ImageManipulators.filling_linear`:
`kspace.flat[int(kspace.size * value // 100)::] = 0` — zero the row-major
flattened buffer from index `⌊size·value/100⌋` on (Python slice clamping
for a negative start index included). -/
def fillingLinear {m n : ℕ} (k : KMat m n) (v : ℚ) : KMat m n :=
  let st := pyStart (m * n) ⌊((m * n : ℕ) : ℚ) * v / 100⌋
  fun i j => if st ≤ (i : ℕ) * n + (j : ℕ) then czero else k i j

/-- Embedding of `ImageManipulators.reduced_scan_percentage`:
if `int(percentage) < 100`, compute
`lines_to_delete = round((1 - percentage/100) * rows / 2)` and, when it is
nonzero, zero the row slices `kspace[0:lines_to_delete]` and
`kspace[-lines_to_delete:]`. -/
def reducedScanPercentage {m n : ℕ} (k : KMat m n) (pct : ℚ) : KMat m n :=
  if pyTrunc pct < 100 then
    if pyRound ((1 - pct/100) * (m : ℚ) / 2) ≠ 0 then
      fun i j => if (i : ℤ) < pyRound ((1 - pct/100) * (m : ℚ) / 2)
                    ∨ (m : ℤ) - pyRound ((1 - pct/100) * (m : ℚ) / 2) ≤ (i : ℤ) then czero
                 else k i j
    else k
  else k

section Sanity

example : pyRound (5/2) = 2 := by norm_num [pyRound]
example : pyRound (7/2) = 4 := by norm_num [pyRound]
example : pyRound (-1/2) = 0 := by norm_num [pyRound]
example : pyTrunc (-7/2) = -3 := by norm_num [pyTrunc]
example : pyStart 8 (-3) = 5 := by decide

end Sanity

/-- Rounding a nonnegative scalar yields a nonnegative integer. -/
lemma pyRound_nonneg {q : ℚ} (hq : 0 ≤ q) : 0 ≤ pyRound q := by
  have h : (0:ℤ) ≤ ⌊q⌋ := Int.floor_nonneg.mpr hq
  unfold pyRound
  dsimp only
  split_ifs <;> omega

/-- A nonnegative slice start is not reinterpreted from the end. -/
lemma pyStart_of_nonneg {size : ℕ} {s : ℤ} (hs : 0 ≤ s) : pyStart size s = s.toNat := by
  unfold pyStart
  split_ifs with h
  · omega
  · rfl

/-- With `int(q) = ⌊q⌋` for nonnegative `q`, Python truncation is the floor. -/
lemma pyTrunc_of_nonneg {q : ℚ} (hq : 0 ≤ q) : pyTrunc q = ⌊q⌋ := by
  unfold pyTrunc
  rw [if_pos hq]

/-- Cardinality of the union of the first and last `d` row indices of `m` rows. -/
lemma card_edge (m : ℕ) (d : ℤ) (hd : 0 ≤ d) :
    ((Finset.range m).filter (fun i : ℕ => (i:ℤ) < d ∨ (m:ℤ) - d ≤ (i:ℤ))).card
      = min (2 * d.toNat) m := by
  have hset : (Finset.range m).filter (fun i : ℕ => ¬((i:ℤ) < d ∨ (m:ℤ) - d ≤ (i:ℤ)))
      = Finset.Ico d.toNat (m - d.toNat) := by
    ext x
    simp only [Finset.mem_filter, Finset.mem_range, Finset.mem_Ico]
    omega
  have h2 := Finset.filter_card_add_filter_neg_card_eq_card
    (s := Finset.range m) (p := fun i : ℕ => (i:ℤ) < d ∨ (m:ℤ) - d ≤ (i:ℤ))
  rw [hset, Nat.card_Ico, Finset.card_range] at h2
  omega

/-- C6: for every k-space of `size = m·n` elements and fill value `v ∈ [0,100]`,
`filling_linear` zeroes exactly the row-major flat indices at or beyond
`⌊size·v/100⌋` and leaves earlier flat indices unchanged; with `v = 100` it is
a no-op. -/
theorem C6_filling_linear {m n : ℕ} (k : KMat m n) (v : ℚ) (h0 : 0 ≤ v) (h1 : v ≤ 100) :
    (∀ i j, fillingLinear k v i j =
      if (⌊((m * n : ℕ) : ℚ) * v / 100⌋ : ℤ) ≤ ((i : ℕ) * n + (j : ℕ) : ℕ) then czero
      else k i j)
    ∧ (v = 100 → fillingLinear k v = k) := by
  have hfl : (0:ℤ) ≤ ⌊((m * n : ℕ) : ℚ) * v / 100⌋ := by
    apply Int.floor_nonneg.mpr
    positivity
  constructor
  · intro i j
    show (if pyStart (m * n) ⌊((m * n : ℕ) : ℚ) * v / 100⌋ ≤ (i : ℕ) * n + (j : ℕ)
        then czero else k i j) = _
    rw [pyStart_of_nonneg hfl]
    congr 1
    rw [eq_iff_iff]
    omega
  · intro hv
    subst hv
    have hfloor : ⌊((m * n : ℕ) : ℚ) * 100 / 100⌋ = (m * n : ℕ) := by
      have h : ((m * n : ℕ) : ℚ) * 100 / 100 = ((m * n : ℕ) : ℚ) := by ring
      rw [h, Int.floor_natCast]
    funext i j
    show (if pyStart (m * n) ⌊((m * n : ℕ) : ℚ) * 100 / 100⌋ ≤ (i : ℕ) * n + (j : ℕ)
        then czero else k i j) = _
    rw [hfloor, pyStart_of_nonneg (by positivity)]
    have hij : (i : ℕ) * n + (j : ℕ) < m * n := by
      have hi := i.isLt
      have hj := j.isLt
      calc (i : ℕ) * n + (j : ℕ) < (i : ℕ) * n + n := by omega
        _ = ((i : ℕ) + 1) * n := by ring
        _ ≤ m * n := Nat.mul_le_mul_right n (by omega)
    rw [if_neg (by omega)]

/-- Helper inequality used by witnesses. -/
lemma q_le_50_100 : (0:ℚ) ≤ 50 ∧ (50:ℚ) ≤ 100 := by norm_num

/-- A concrete 2×4 (8-element) k-space of all-ones samples. -/
def kEight : KMat 2 4 := fun _ _ => (1, 0)

/-- Witness for C6: the 8-element scenario of the claim at `v = 50`;
the boundary cells show flat index 4 zeroed and flat index 3 kept. -/
theorem C6_filling_linear_witness :
    ((0:ℚ) ≤ 50 ∧ (50:ℚ) ≤ 100) ∧
    (∀ i j, fillingLinear kEight 50 i j =
      if (⌊((2 * 4 : ℕ) : ℚ) * 50 / 100⌋ : ℤ) ≤ ((i : ℕ) * 4 + (j : ℕ) : ℕ) then czero
      else kEight i j) ∧
    fillingLinear kEight 50 ⟨1, by omega⟩ ⟨0, by omega⟩ = czero ∧
    fillingLinear kEight 50 ⟨0, by omega⟩ ⟨3, by omega⟩ = (1, 0) := by
  refine ⟨q_le_50_100, (C6_filling_linear kEight 50 q_le_50_100.1 q_le_50_100.2).1, ?_, ?_⟩ <;>
    norm_num [fillingLinear, pyStart, czero, kEight]

/-- C5: `reduced_scan_percentage` with percentage `100` is a no-op; with
percentage `p < 100` (for `p ∈ [0,100]`) it zeroes exactly the first `nn` and
last `nn` rows, `nn = round((1 - p/100)·rows/2)` (banker's rounding), so that
exactly `min (2·nn) rows` row indices are zeroed and all middle rows are
unchanged. -/
theorem C5_reduced_scan {m n : ℕ} (k : KMat m n) (p : ℚ) (h0 : 0 ≤ p) (h1 : p ≤ 100) :
    (p = 100 → reducedScanPercentage k p = k)
    ∧ (p < 100 →
        (∀ i j, reducedScanPercentage k p i j =
          if (i : ℤ) < pyRound ((1 - p/100) * (m : ℚ) / 2)
             ∨ (m : ℤ) - pyRound ((1 - p/100) * (m : ℚ) / 2) ≤ (i : ℤ) then czero
          else k i j)
        ∧ ((Finset.range m).filter (fun i : ℕ => (i : ℤ) < pyRound ((1 - p/100) * (m : ℚ) / 2)
             ∨ (m : ℤ) - pyRound ((1 - p/100) * (m : ℚ) / 2) ≤ (i : ℤ))).card
          = min (2 * (pyRound ((1 - p/100) * (m : ℚ) / 2)).toNat) m) := by
  constructor
  · intro hp
    subst hp
    unfold reducedScanPercentage
    rw [pyTrunc_of_nonneg (by norm_num)]
    norm_num
  · intro hp
    have hguard : pyTrunc p < 100 := by
      rw [pyTrunc_of_nonneg h0]
      exact Int.floor_lt.mpr (by exact_mod_cast hp)
    have hnn : 0 ≤ pyRound ((1 - p/100) * (m : ℚ) / 2) := by
      apply pyRound_nonneg
      have : 0 ≤ 1 - p/100 := by linarith
      positivity
    constructor
    · intro i j
      unfold reducedScanPercentage
      rw [if_pos hguard]
      by_cases hz : pyRound ((1 - p/100) * (m : ℚ) / 2) = 0
      · rw [if_neg (by omega)]
        rw [hz]
        have hni : ¬ ((i : ℤ) < 0 ∨ (m : ℤ) - 0 ≤ (i : ℤ)) := by
          have := i.isLt
          omega
        rw [if_neg hni]
      · rw [if_pos hz]
    · exact card_edge m _ hnn

/-- Helper inequality used by witnesses. -/
lemma q50_lt_100 : (50:ℚ) < 100 := by norm_num

/-- A concrete 6×1 all-ones k-space. -/
def kSix : KMat 6 1 := fun _ _ => (1, 0)

/-- Witness for C5: at `p = 50` on 6 rows, `lines_to_delete = round 1.5 = 2`
(banker's rounding) and the first/last two rows are zeroed. -/
theorem C5_reduced_scan_witness :
    ((0:ℚ) ≤ 50) ∧ ((50:ℚ) ≤ 100) ∧ ((50:ℚ) < 100) ∧
    (∀ i j, reducedScanPercentage kSix 50 i j =
      if (i : ℤ) < pyRound ((1 - 50/100) * ((6:ℕ) : ℚ) / 2)
         ∨ ((6:ℕ) : ℤ) - pyRound ((1 - 50/100) * ((6:ℕ) : ℚ) / 2) ≤ (i : ℤ) then czero
      else kSix i j) :=
  ⟨q_le_50_100.1, q_le_50_100.2, q50_lt_100,
    ((C5_reduced_scan kSix 50 q_le_50_100.1 q_le_50_100.2).2 q50_lt_100).1⟩

/-- The set of cells inside the filter circle: squared distance from the
centre cell `(rows//2, cols//2)` is at most
`r² = (hypot(rows,cols)/2 · radius/100)² = (rows² + cols²)/4 · (radius/100)²`,
exactly the mask `x*x + y*y <= r*r` built from `np.ogrid` offsets in the
source. -/
abbrev insideRadius (m n : ℕ) (radius : ℚ) (i : Fin m) (j : Fin n) : Prop :=
  ((((i:ℤ) - (m/2 : ℕ))^2 + ((j:ℤ) - (n/2 : ℕ))^2 : ℤ) : ℚ)
    ≤ ((m:ℚ)^2 + (n:ℚ)^2)/4 * (radius/100)^2

/-- Embedding of `ImageManipulators.high_pass_filter`: when `radius > 0`,
zero every cell inside the circle; otherwise leave the k-space unchanged. -/
def highPassFilter {m n : ℕ} (k : KMat m n) (radius : ℚ) : KMat m n :=
  if 0 < radius then
    fun i j => if insideRadius m n radius i j then czero else k i j
  else k

/-- Embedding of `ImageManipulators.low_pass_filter`: when `radius < 100`,
zero every cell outside the circle (`kspace[~mask] = 0`); otherwise leave
the k-space unchanged. -/
def lowPassFilter {m n : ℕ} (k : KMat m n) (radius : ℚ) : KMat m n :=
  if radius < 100 then
    fun i j => if ¬ insideRadius m n radius i j then czero else k i j
  else k

/-- C3 (amended): for the SAME radius percentage `r` with `0 < r < 100`,
`high_pass_filter` zeroes exactly the cells inside the circle of the claim's
radius formula and `low_pass_filter` zeroes exactly the complement, so the
two zeroed regions are exact set-complements. -/
theorem C3_high_low_complements {m n : ℕ} (k : KMat m n) (r : ℚ)
    (h0 : 0 < r) (h1 : r < 100) :
    (∀ i j, highPassFilter k r i j = if insideRadius m n r i j then czero else k i j)
    ∧ (∀ i j, lowPassFilter k r i j = if insideRadius m n r i j then k i j else czero) := by
  constructor
  · intro i j
    unfold highPassFilter
    rw [if_pos h0]
  · intro i j
    unfold lowPassFilter
    rw [if_pos h1]
    by_cases hm : insideRadius m n r i j
    · rw [if_neg (by exact not_not_intro hm), if_pos hm]
    · rw [if_pos hm, if_neg hm]

/-- A concrete 4×4 all-ones k-space. -/
def kFour : KMat 4 4 := fun _ _ => (1, 0)

/-- Counterexample to C3 as stated: on a 4×4 k-space the cell `(2,3)` lies
outside the `r = 30` circle (squared distance 1 > 0.72) yet inside the
`100 - r = 70` circle (1 ≤ 3.92), so `low_pass_filter` with the complementary
percentage keeps it rather than zeroing the complement of the `r = 30` disc:
the two zeroed regions are NOT set-complements. -/
theorem C3_counterexample :
    ¬ insideRadius 4 4 30 ⟨2, by omega⟩ ⟨3, by omega⟩ ∧
    highPassFilter kFour 30 ⟨2, by omega⟩ ⟨3, by omega⟩ = (1, 0) ∧
    lowPassFilter kFour 70 ⟨2, by omega⟩ ⟨3, by omega⟩ = (1, 0) ∧
    ¬ (∀ i j, lowPassFilter kFour 70 i j =
        if insideRadius 4 4 30 i j then kFour i j else czero) := by
  refine ⟨by norm_num, ?_, ?_, ?_⟩
  · norm_num [highPassFilter, kFour, czero]
  · norm_num [lowPassFilter, kFour, czero]
  · intro h
    have h23 := h ⟨2, by omega⟩ ⟨3, by omega⟩
    norm_num [lowPassFilter, kFour, czero] at h23

/-- NumPy's comparison order on complex values: lexicographic on the real
part, then the imaginary part (the order used by `np.ndarray.max` on a
complex array). -/
def lexLe (z w : Cq) : Prop := z.1 < w.1 ∨ (z.1 = w.1 ∧ z.2 ≤ w.2)

/-- Pairwise maximum in NumPy's comparison order. -/
def lexMax (z w : Cq) : Cq := if z.1 < w.1 ∨ (z.1 = w.1 ∧ z.2 < w.2) then w else z

/-- The row-major flattening of a k-space buffer. -/
def flattenK {m n : ℕ} (k : KMat m n) : List Cq :=
  (List.ofFn (fun i => List.ofFn (k i))).flatten

/-- Maximum of a list of complex samples in NumPy's comparison order
(`ndarray.max` raises on an empty array; the `[]` case is unreachable for
the nonempty buffers considered here). -/
def listMaxC : List Cq → Cq
  | [] => czero
  | z :: zs => zs.foldl lexMax z

/-- Embedding of `kspace.max()` for a complex k-space. -/
def npmaxK {m n : ℕ} (k : KMat m n) : Cq := listMaxC (flattenK k)

lemma lexLe_refl (z : Cq) : lexLe z z := Or.inr ⟨rfl, le_refl _⟩

lemma lexLe_trans {a b c : Cq} (h1 : lexLe a b) (h2 : lexLe b c) : lexLe a c := by
  rcases h1 with h1 | ⟨e1, l1⟩ <;> rcases h2 with h2 | ⟨e2, l2⟩
  · exact Or.inl (lt_trans h1 h2)
  · exact Or.inl (by rw [← e2]; exact h1)
  · exact Or.inl (by rw [e1]; exact h2)
  · exact Or.inr ⟨e1.trans e2, le_trans l1 l2⟩

lemma lexMax_eq_or (z w : Cq) : lexMax z w = z ∨ lexMax z w = w := by
  unfold lexMax
  split_ifs <;> simp

lemma lexLe_lexMax_left (z w : Cq) : lexLe z (lexMax z w) := by
  unfold lexLe lexMax
  split_ifs with h
  · rcases h with h | ⟨h1, h2⟩
    · exact Or.inl h
    · exact Or.inr ⟨h1, le_of_lt h2⟩
  · exact Or.inr ⟨rfl, le_refl _⟩

lemma lexLe_lexMax_right (z w : Cq) : lexLe w (lexMax z w) := by
  unfold lexLe lexMax
  split_ifs with h
  · exact Or.inr ⟨rfl, le_refl _⟩
  · push_neg at h
    rcases lt_trichotomy w.1 z.1 with h1 | h1 | h1
    · exact Or.inl h1
    · exact Or.inr ⟨h1, h.2 h1.symm⟩
    · exact absurd h1 (not_lt.mpr h.1)

lemma foldl_lexMax_mem (l : List Cq) (a : Cq) : l.foldl lexMax a = a ∨ l.foldl lexMax a ∈ l := by
  induction l generalizing a with
  | nil => exact Or.inl rfl
  | cons b t ih =>
    rw [List.foldl_cons]
    rcases ih (lexMax a b) with h | h
    · rcases lexMax_eq_or a b with h2 | h2
      · exact Or.inl (by rw [h, h2])
      · exact Or.inr (by rw [h, h2]; exact List.mem_cons_self _ _)
    · exact Or.inr (List.mem_cons_of_mem _ h)

lemma foldl_lexMax_le (l : List Cq) (a : Cq) :
    lexLe a (l.foldl lexMax a) ∧ ∀ z ∈ l, lexLe z (l.foldl lexMax a) := by
  induction l generalizing a with
  | nil => exact ⟨lexLe_refl a, by simp⟩
  | cons b t ih =>
    rw [List.foldl_cons]
    obtain ⟨h1, h2⟩ := ih (lexMax a b)
    refine ⟨lexLe_trans (lexLe_lexMax_left a b) h1, ?_⟩
    intro z hz
    rcases List.mem_cons.mp hz with rfl | hz
    · exact lexLe_trans (lexLe_lexMax_right a z) h1
    · exact h2 z hz

lemma listMaxC_mem {l : List Cq} (h : l ≠ []) : listMaxC l ∈ l := by
  cases l with
  | nil => exact absurd rfl h
  | cons a t =>
    show t.foldl lexMax a ∈ a :: t
    rcases foldl_lexMax_mem t a with h2 | h2
    · rw [h2]; exact List.mem_cons_self _ _
    · exact List.mem_cons_of_mem _ h2

lemma listMaxC_le {l : List Cq} {z : Cq} (hz : z ∈ l) : lexLe z (listMaxC l) := by
  cases l with
  | nil => exact absurd hz (List.not_mem_nil z)
  | cons a t =>
    show lexLe z (t.foldl lexMax a)
    rcases List.mem_cons.mp hz with rfl | hz
    · exact (foldl_lexMax_le t z).1
    · exact (foldl_lexMax_le t a).2 z hz

lemma mem_flattenK {m n : ℕ} (k : KMat m n) (a : Fin m) (b : Fin n) :
    k a b ∈ flattenK k := by
  unfold flattenK
  rw [List.mem_flatten]
  refine ⟨List.ofFn (k a), ?_, ?_⟩
  · rw [List.mem_ofFn]
    exact ⟨a, rfl⟩
  · rw [List.mem_ofFn]
    exact ⟨b, rfl⟩

lemma flattenK_exists {m n : ℕ} (k : KMat m n) {z : Cq} (hz : z ∈ flattenK k) :
    ∃ a b, k a b = z := by
  unfold flattenK at hz
  rw [List.mem_flatten] at hz
  obtain ⟨l, hl, hzl⟩ := hz
  rw [List.mem_ofFn] at hl
  obtain ⟨a, rfl⟩ := hl
  rw [List.mem_ofFn] at hzl
  obtain ⟨b, hb⟩ := hzl
  exact ⟨a, b, hb⟩

/-- Embedding of `ImageManipulators.apply_spikes`: compute
`spike_intensity = kspace.max() * 2` once, then loop over the recorded
coordinates writing that value into each cell. -/
def applySpikes {m n : ℕ} (k : KMat m n) (spikes : List (Fin m × Fin n)) : KMat m n :=
  spikes.foldl
    (fun acc sp => fun i j => if i = sp.1 ∧ j = sp.2 then cscale 2 (npmaxK k) else acc i j) k

lemma foldl_write (v : Cq) {m n : ℕ} (spikes : List (Fin m × Fin n)) (k0 : KMat m n)
    (i : Fin m) (j : Fin n) :
    spikes.foldl (fun acc sp => fun a b => if a = sp.1 ∧ b = sp.2 then v else acc a b) k0 i j
      = if (i, j) ∈ spikes then v else k0 i j := by
  induction spikes generalizing k0 with
  | nil => simp
  | cons sp t ih =>
    rw [List.foldl_cons, ih]
    by_cases ht : (i, j) ∈ t
    · rw [if_pos ht, if_pos (List.mem_cons_of_mem _ ht)]
    · rw [if_neg ht]
      by_cases hsp : i = sp.1 ∧ j = sp.2
      · rw [if_pos hsp, if_pos (by rw [List.mem_cons]; exact Or.inl (Prod.ext hsp.1 hsp.2))]
      · rw [if_neg hsp, if_neg ?_]
        intro hmem
        rcases List.mem_cons.mp hmem with he | hmt
        · exact hsp ⟨congrArg Prod.fst he, congrArg Prod.snd he⟩
        · exact ht hmt

/-- C2 (amended): `apply_spikes` sets each listed cell to TWICE THE MAXIMUM
ELEMENT OF THE K-SPACE IN NUMPY'S COMPARISON ORDER (lexicographic by real
part, then imaginary part — not twice the maximum magnitude), the maximum
taken over the k-space as it was before any spike was written; all other
cells are unchanged. -/
theorem C2_apply_spikes {m n : ℕ} (k : KMat (m+1) (n+1))
    (spikes : List (Fin (m+1) × Fin (n+1))) :
    (∃ a b, k a b = npmaxK k) ∧
    (∀ a b, lexLe (k a b) (npmaxK k)) ∧
    (∀ i j, applySpikes k spikes i j =
      if (i, j) ∈ spikes then cscale 2 (npmaxK k) else k i j) := by
  have hne : flattenK k ≠ [] := List.ne_nil_of_mem (mem_flattenK k 0 0)
  refine ⟨flattenK_exists k (listMaxC_mem hne), ?_, ?_⟩
  · intro a b
    exact listMaxC_le (mem_flattenK k a b)
  · intro i j
    exact foldl_write (cscale 2 (npmaxK k)) spikes k i j

/-- A concrete 2×1 k-space holding the samples `-5` and `1`: the maximum
magnitude is 5 but NumPy's `max()` is `1`. -/
def kTwo : KMat 2 1 := fun i _ => if i = 0 then (-5, 0) else (1, 0)

/-- Counterexample to C2 as stated: on `kTwo` with one spike at `(0,0)` the
written value is `2·max() = 2`, not twice the maximum magnitude `2·5 = 10`
(neither as a complex value nor in magnitude). -/
theorem C2_counterexample :
    applySpikes kTwo [(⟨0, by omega⟩, ⟨0, by omega⟩)] ⟨0, by omega⟩ ⟨0, by omega⟩ = (2, 0) ∧
    (∀ i j, magSq (kTwo i j) ≤ 25) ∧
    magSq (kTwo ⟨0, by omega⟩ ⟨0, by omega⟩) = 25 ∧
    ((2:ℚ), (0:ℚ)) ≠ ((10:ℚ), (0:ℚ)) ∧
    magSq ((2:ℚ), (0:ℚ)) ≠ 10^2 := by
  refine ⟨?_, ?_, ?_, ?_, ?_⟩
  · norm_num [applySpikes, npmaxK, flattenK, listMaxC, kTwo, lexMax, cscale,
      List.ofFn_succ, Fin.ext_iff]
  · intro i j
    fin_cases i <;> fin_cases j <;> norm_num [kTwo, magSq, Fin.ext_iff]
  · norm_num [kTwo, magSq, Fin.ext_iff]
  · norm_num [Prod.ext_iff]
  · norm_num [magSq]

/-- Helper inequalities used by witnesses. -/
lemma q30_pos_lt_100 : (0:ℚ) < 30 ∧ (30:ℚ) < 100 := by norm_num

/-- Witness for the amended C3 at radius 30 on the concrete 4×4 k-space. -/
theorem C3_high_low_complements_witness :
    ((0:ℚ) < 30) ∧ ((30:ℚ) < 100) ∧
    (∀ i j, highPassFilter kFour 30 i j = if insideRadius 4 4 30 i j then czero else kFour i j)
    ∧ (∀ i j, lowPassFilter kFour 30 i j = if insideRadius 4 4 30 i j then kFour i j else czero) :=
  ⟨q30_pos_lt_100.1, q30_pos_lt_100.2,
    (C3_high_low_complements kFour 30 q30_pos_lt_100.1 q30_pos_lt_100.2).1,
    (C3_high_low_complements kFour 30 q30_pos_lt_100.1 q30_pos_lt_100.2).2⟩

/-- Rows KEPT by undersampling with acceleration factor `f`: the two mask
slices `mask[midline::factor] = 0` and `mask[midline::-factor] = 0` with
`midline = rows // 2` clear the mask (keep the data) exactly on rows at a
multiple-of-`f` distance from the midline. -/
def usKeep (m f : ℕ) (i : ℕ) : Prop :=
  (m / 2 ≤ i ∧ (i - m / 2) % f = 0) ∨ (i ≤ m / 2 ∧ (m / 2 - i) % f = 0)

instance (m f i : ℕ) : Decidable (usKeep m f i) := by
  unfold usKeep
  infer_instance

/-- The kept rows in increasing order (the rows selected by the boolean-mask
extraction `q = kspace[~mask]`, row-major). -/
def usKeptList (m f : ℕ) : List (Fin m) :=
  (List.finRange m).filter (fun i => decide (usKeep m f (i : ℕ)))

/-- Embedding of `ImageManipulators.undersample`: when `factor > 1`, either
zero all rows not in the keep pattern (`compress = false`), or collapse the
buffer to the kept rows, changing the row count (`compress = true`, which in
the source resizes the arrays via `resize_arrays`).  When `factor ≤ 1`
nothing happens.  The result is a row count together with a buffer of that
row count. -/
def undersample {m n : ℕ} (k : KMat m n) (factor : ℤ) (compress : Bool) :
    Σ m' : ℕ, KMat m' n :=
  if 1 < factor then
    if compress then
      ⟨(usKeptList m factor.toNat).length, fun t j => k ((usKeptList m factor.toNat).get t) j⟩
    else
      ⟨m, fun i j => if usKeep m factor.toNat (i : ℕ) then k i j else czero⟩
  else ⟨m, k⟩

/-- C8: out-of-range boundary parameters disable the filter instead of
raising: `undersample` with acceleration factor ≤ 1 leaves the k-space and
its shape unchanged (for either value of the compress flag), and
`high_pass_filter` with radius ≤ 0 leaves the k-space unchanged.  Both
embedded operations are total functions, so neither raises. -/
theorem C8_boundary_noop {m n : ℕ} (k : KMat m n) (factor : ℤ) (radius : ℚ)
    (hf : factor ≤ 1) (hr : radius ≤ 0) (compress : Bool) :
    undersample k factor compress = ⟨m, k⟩ ∧ highPassFilter k radius = k := by
  constructor
  · unfold undersample
    rw [if_neg (by omega)]
  · unfold highPassFilter
    rw [if_neg (not_lt.mpr hr)]

/-- A concrete 1×1 one-sample k-space. -/
def kOne : KMat 1 1 := fun _ _ => (1, 0)

/-- Witness for C8 at `factor = 1`, `radius = 0`, `compress = true`. -/
theorem C8_boundary_noop_witness :
    ((1:ℤ) ≤ 1) ∧ ((0:ℚ) ≤ 0) ∧
    (undersample kOne 1 true = ⟨1, kOne⟩ ∧ highPassFilter kOne 0 = kOne) :=
  ⟨le_refl 1, le_refl 0, C8_boundary_noop kOne 1 0 (le_refl 1) (le_refl 0) true⟩

/-- The number of trailing rows not acquired by partial Fourier:
`rows_to_skip = round((1 - percentage/100) * (rows/2 - 1))`. -/
def pfSkip (m : ℕ) (pct : ℚ) : ℤ := pyRound ((1 - pct/100) * ((m : ℚ)/2 - 1))

/-- Circular index shift: `np.roll(x, (sv, sh), axis=(0, 1))` reads the value
of cell `(i, j)` from cell `((i - sv) mod rows, (j - sh) mod cols)`. -/
def wrap {m : ℕ} (i : Fin m) (s : ℤ) : Fin m :=
  ⟨(((i : ℤ) - s) % (m : ℤ)).toNat, by
    have hm : 0 < m := i.pos
    have hmz : (0:ℤ) < (m:ℤ) := by exact_mod_cast hm
    have h1 : 0 ≤ ((i : ℤ) - s) % (m : ℤ) := Int.emod_nonneg _ (by omega)
    have h2 : ((i : ℤ) - s) % (m : ℤ) < (m : ℤ) := Int.emod_lt_of_pos _ hmz
    omega⟩

/-- Circular 2D roll by `(sv, sh)`. -/
def roll2 {m n : ℕ} (sv sh : ℤ) (x : KMat m n) : KMat m n :=
  fun i j => x (wrap i sv) (wrap j sh)

/-- Reversal along both axes, the view `kspace[::-1, ::-1]`. -/
def rev2 {m n : ℕ} (x : KMat m n) : KMat m n := fun i j => x i.rev j.rev

/-- The conjugate-symmetry source of partial Fourier: the k-space reversed
along both axes, then circularly shifted by 1 along each axis whose length
is even (`shift_hor = not cols & 1`, `shift_ver = 0 if rows % 2 else 1`). -/
def pfMirror {m n : ℕ} (k : KMat m n) : KMat m n :=
  roll2 (if m % 2 = 0 then 1 else 0) (if n % 2 = 0 then 1 else 0) (rev2 k)

/-- Embedding of `ImageManipulators.partial_fourier`: when
`int(percentage) != 100` and `rows_to_skip` is nonzero, either zero the
trailing `rows_to_skip` rows (`zf`), or overwrite them with the conjugated
mirror rows `np.conj(np.roll(kspace[::-1, ::-1], s, axis=(0,1))[-rows_to_skip:])`. -/
def pFourier {m n : ℕ} (k : KMat m n) (pct : ℚ) (zf : Bool) : KMat m n :=
  if pyTrunc pct ≠ 100 then
    if pfSkip m pct ≠ 0 ∧ zf = true then
      fun i j => if (m:ℤ) - pfSkip m pct ≤ (i:ℤ) then czero else k i j
    else if pfSkip m pct ≠ 0 then
      fun i j => if (m:ℤ) - pfSkip m pct ≤ (i:ℤ) then conjq (pfMirror k i j) else k i j
    else k
  else k

/-- C4: partial Fourier with a sampled percentage `pct ∈ [0,100]`:
with `pct = 100` it is a no-op; with `pct < 100` and the zero-fill flag set
it zeroes exactly the trailing `skip` rows (`skip = round((1 - pct/100) ·
(rows/2 - 1))`, banker's rounding) and leaves the leading rows unchanged;
with the flag unset it replaces exactly the trailing `skip` rows by the
complex conjugate of the corresponding rows of the double-axis-reversed,
parity-shifted mirror, leaving the leading rows unchanged. -/
theorem C4_pFourier {m n : ℕ} (k : KMat m n) (pct : ℚ)
    (h0 : 0 ≤ pct) (h1 : pct ≤ 100) :
    (pct = 100 → ∀ zf, pFourier k pct zf = k) ∧
    (pct < 100 →
      (∀ i j, pFourier k pct true i j =
        if (m:ℤ) - pfSkip m pct ≤ (i:ℤ) then czero else k i j) ∧
      (∀ i j, pFourier k pct false i j =
        if (m:ℤ) - pfSkip m pct ≤ (i:ℤ) then conjq (pfMirror k i j) else k i j)) := by
  constructor
  · intro hp zf
    subst hp
    unfold pFourier
    rw [if_neg (by rw [pyTrunc_of_nonneg (by norm_num)]; norm_num)]
  · intro hp
    have hguard : pyTrunc pct ≠ 100 := by
      rw [pyTrunc_of_nonneg h0]
      have : ⌊pct⌋ < 100 := Int.floor_lt.mpr (by exact_mod_cast hp)
      omega
    constructor
    · intro i j
      unfold pFourier
      rw [if_pos hguard]
      by_cases hz : pfSkip m pct = 0
      · rw [if_neg (by simp [hz]), if_neg (by simp [hz]), hz]
        have hni : ¬ ((m:ℤ) - 0 ≤ (i:ℤ)) := by
          have := i.isLt
          omega
        rw [if_neg hni]
      · rw [if_pos ⟨hz, rfl⟩]
    · intro i j
      unfold pFourier
      rw [if_pos hguard]
      by_cases hz : pfSkip m pct = 0
      · rw [if_neg (by simp [hz]), if_neg (by simp [hz]), hz]
        have hni : ¬ ((m:ℤ) - 0 ≤ (i:ℤ)) := by
          have := i.isLt
          omega
        rw [if_neg hni]
      · rw [if_neg (by simp), if_pos hz]

/-- A concrete 8×1 k-space with pairwise distinct samples. -/
def kEightOne : KMat 8 1 := fun i _ => ((i : ℕ) + 1, (i : ℕ) + 2)

/-- Witness for C4 at `pct = 50` on 8 rows (`skip = round 1.5 = 2`): both
branch characterisations hold, and on the mirror branch the last row receives
`conj` of the mirrored sample. -/
theorem C4_pFourier_witness :
    ((0:ℚ) ≤ 50) ∧ ((50:ℚ) ≤ 100) ∧ ((50:ℚ) < 100) ∧
    ((∀ i j, pFourier kEightOne 50 true i j =
        if ((8:ℕ):ℤ) - pfSkip 8 50 ≤ (i:ℤ) then czero else kEightOne i j) ∧
      (∀ i j, pFourier kEightOne 50 false i j =
        if ((8:ℕ):ℤ) - pfSkip 8 50 ≤ (i:ℤ) then conjq (pfMirror kEightOne i j)
        else kEightOne i j)) :=
  ⟨q_le_50_100.1, q_le_50_100.2, q50_lt_100,
    (C4_pFourier kEightOne 50 q_le_50_100.1 q_le_50_100.2).2 q50_lt_100⟩

/-- Maximum of a list of real samples (`ndarray.max` on the float image;
the `[]` case is unreachable for nonempty buffers). -/
def listMaxQ : List ℚ → ℚ
  | [] => 0
  | x :: xs => xs.foldl max x

/-- Minimum of a list of real samples. -/
def listMinQ : List ℚ → ℚ
  | [] => 0
  | x :: xs => xs.foldl min x

/-- Row-major flattening of a real buffer. -/
def flattenQ {m n : ℕ} (f : QMat m n) : List ℚ :=
  (List.ofFn (fun i => List.ofFn (f i))).flatten

/-- Embedding of `np.max(f)`. -/
def npmaxQ {m n : ℕ} (f : QMat m n) : ℚ := listMaxQ (flattenQ f)

/-- Embedding of `np.min(f)`. -/
def npminQ {m n : ℕ} (f : QMat m n) : ℚ := listMinQ (flattenQ f)

/-- The effective window width `ww`: the `ww` fraction of the image maximum
when a window is supplied, otherwise the full maximum. -/
def winWW {m n : ℕ} (f : QMat m n) (w : Option (ℚ × ℚ)) : ℚ :=
  match w with
  | some wv => wv.1 * npmaxQ f
  | none => npmaxQ f

/-- The effective window centre `wc`: the `wc` fraction of the image maximum
when a window is supplied, otherwise half the effective width. -/
def winWC {m n : ℕ} (f : QMat m n) (w : Option (ℚ × ℚ)) : ℚ :=
  match w with
  | some wv => wv.2 * npmaxQ f
  | none => winWW f w / 2

/-- Embedding of `ImageManipulators.apply_window`: when the image is not
flat, apply `np.piecewise(f, [f <= w_low, f > w_high], [0, 255, linear])`.
`np.piecewise` assigns the pieces in order, so where the two conditions
overlap (possible only when the effective width is negative) the later
`255` piece wins; cells satisfying neither condition get the linear map. -/
def applyWindow {m n : ℕ} (f : QMat m n) (w : Option (ℚ × ℚ)) : QMat m n :=
  if npmaxQ f ≠ npminQ f then
    fun i j =>
      if winWC f w + winWW f w / 2 < f i j then 255
      else if f i j ≤ winWC f w - winWW f w / 2 then 0
      else ((f i j - winWC f w) / winWW f w + 1/2) * 255
  else f

/-- C10 (amended): for an array whose max exceeds its min and a window
`{ww, wc}` whose EFFECTIVE WIDTH `ww·max` IS NONNEGATIVE, `apply_window`
maps every cell at or below the low bound `wc·max - (ww·max)/2` to 0 (the
boundary value itself is clipped to 0, not mapped linearly) and every cell
strictly above the high bound `wc·max + (ww·max)/2` to 255.  (When
`ww·max < 0` the two conditions overlap and `np.piecewise` maps the
overlap to 255, which falsifies the unamended claim.) -/
theorem C10_apply_window {m n : ℕ} (f : QMat m n) (ww0 wc0 : ℚ)
    (hmm : npminQ f < npmaxQ f) (hw : 0 ≤ ww0 * npmaxQ f) :
    (∀ i j, f i j ≤ wc0 * npmaxQ f - (ww0 * npmaxQ f)/2 →
      applyWindow f (some (ww0, wc0)) i j = 0) ∧
    (∀ i j, wc0 * npmaxQ f + (ww0 * npmaxQ f)/2 < f i j →
      applyWindow f (some (ww0, wc0)) i j = 255) := by
  have hne : npmaxQ f ≠ npminQ f := (ne_of_lt hmm).symm
  have hcc : winWC f (some (ww0, wc0)) = wc0 * npmaxQ f := rfl
  have hcw : winWW f (some (ww0, wc0)) = ww0 * npmaxQ f := rfl
  constructor
  · intro i j hlow
    unfold applyWindow
    rw [if_pos hne]
    rw [hcc, hcw] at *
    rw [if_neg (by linarith), if_pos hlow]
  · intro i j hhigh
    unfold applyWindow
    rw [if_pos hne]
    rw [hcc, hcw] at *
    rw [if_pos hhigh]

/-- A concrete 1×2 all-negative image, values `-10` and `-2`. -/
def wNeg : QMat 1 2 := fun _ j => if j = 0 then -10 else -2

/-- Counterexample to C10 as stated: on `wNeg` with window `{ww = 1, wc = 1}`
the effective width is `1·max = -2 < 0`, the bounds are `w_low = -1`,
`w_high = -3`, and the cell of value `-2` satisfies BOTH `≤ w_low` and
`> w_high`; `np.piecewise` applies the `255` piece last, so the cell maps to
255 although the claim requires every cell `≤ w_low` to map to 0. -/
theorem C10_counterexample :
    npminQ wNeg < npmaxQ wNeg ∧
    wNeg ⟨0, by omega⟩ ⟨1, by omega⟩
      ≤ 1 * npmaxQ wNeg - (1 * npmaxQ wNeg)/2 ∧
    applyWindow wNeg (some (1, 1)) ⟨0, by omega⟩ ⟨1, by omega⟩ = 255 ∧
    (255 : ℚ) ≠ 0 := by
  refine ⟨?_, ?_, ?_, by norm_num⟩
  · norm_num [npminQ, npmaxQ, flattenQ, listMinQ, listMaxQ, wNeg, List.ofFn_succ,
      Fin.ext_iff]
  · norm_num [npmaxQ, flattenQ, listMaxQ, wNeg, List.ofFn_succ, Fin.ext_iff]
  · norm_num [applyWindow, npminQ, npmaxQ, flattenQ, listMinQ, listMaxQ, winWC, winWW,
      wNeg, List.ofFn_succ, Fin.ext_iff]

/-- A concrete 1×2 image with values 0 and 4. -/
def fWin : QMat 1 2 := fun _ j => if j = 0 then 0 else 4

/-- Concrete facts discharging the hypotheses of the C10 witness. -/
lemma fWin_facts : npminQ fWin < npmaxQ fWin ∧ (0:ℚ) ≤ (1/2) * npmaxQ fWin := by
  constructor <;>
    norm_num [npminQ, npmaxQ, flattenQ, listMinQ, listMaxQ, fWin, List.ofFn_succ,
      Fin.ext_iff]

/-- Witness for the amended C10 on `fWin` with window `{ww = 1/2, wc = 1/2}`. -/
theorem C10_apply_window_witness :
    (npminQ fWin < npmaxQ fWin) ∧ ((0:ℚ) ≤ (1/2) * npmaxQ fWin) ∧
    ((∀ i j, fWin i j ≤ (1/2) * npmaxQ fWin - ((1/2) * npmaxQ fWin)/2 →
      applyWindow fWin (some (1/2, 1/2)) i j = 0) ∧
    (∀ i j, (1/2) * npmaxQ fWin + ((1/2) * npmaxQ fWin)/2 < fWin i j →
      applyWindow fWin (some (1/2, 1/2)) i j = 255)) :=
  ⟨fWin_facts.1, fWin_facts.2,
    C10_apply_window fWin (1/2) (1/2) fWin_facts.1 fWin_facts.2⟩

/-- Mean magnitude of the k-space, `np.mean(np.abs(kspace))`. -/
noncomputable def meanAbsK {m n : ℕ} (k : Fin m → Fin n → ℂ) : ℝ :=
  (∑ i, ∑ j, Complex.abs (k i j)) / (m * n : ℕ)

/-- The noise standard deviation for a requested SNR in dB:
`std_noise = mean_signal / 10^(signal_to_noise / 20)`. -/
noncomputable def stdNoise {m n : ℕ} (k : Fin m → Fin n → ℂ) (snr : ℚ) : ℝ :=
  meanAbsK k / (10 : ℝ) ^ ((snr : ℝ) / 20)

/-- Embedding of `ImageManipulators.add_noise`: when the requested SNR is
below 30 dB, optionally regenerate the noise map as `std_noise · randn`
(the standard-normal draw `randn` is an explicit input here) and add the
(possibly regenerated) map to the k-space; at 30 dB or above nothing
happens.  Returns the new k-space together with the noise map. -/
noncomputable def addNoise {m n : ℕ} (k : Fin m → Fin n → ℂ) (snr : ℚ)
    (noise : Fin m → Fin n → ℝ) (gen : Bool) (randn : Fin m → Fin n → ℝ) :
    (Fin m → Fin n → ℂ) × (Fin m → Fin n → ℝ) :=
  if snr < 30 then
    if gen then
      (fun i j => k i j + (stdNoise k snr * randn i j : ℝ),
       fun i j => stdNoise k snr * randn i j)
    else
      (fun i j => k i j + (noise i j : ℝ), noise)
  else (k, noise)

/-- C7: with requested SNR ≥ 30 `add_noise` leaves both the k-space and the
cached noise map unchanged; with SNR < 30 and no regeneration requested it
adds exactly the cached map element-wise without modifying the map, so two
successive such calls add the identical map both times. -/
theorem C7_add_noise {m n : ℕ} (k : Fin m → Fin n → ℂ) (snr : ℚ)
    (noise randn randn2 : Fin m → Fin n → ℝ) :
    (30 ≤ snr → ∀ gen, addNoise k snr noise gen randn = (k, noise)) ∧
    (snr < 30 →
      (addNoise k snr noise false randn).2 = noise ∧
      (addNoise k snr noise false randn).1 = (fun i j => k i j + (noise i j : ℝ)) ∧
      (addNoise (addNoise k snr noise false randn).1 snr
          (addNoise k snr noise false randn).2 false randn2).1
        = fun i j => k i j + (noise i j : ℝ) + (noise i j : ℝ)) := by
  constructor
  · intro h gen
    unfold addNoise
    rw [if_neg (not_lt.mpr h)]
  · intro h
    simp [addNoise, h]

/-- Helper inequalities for the C7 witness. -/
lemma q_snr_facts : ((30:ℚ) ≤ 50) ∧ ((0:ℚ) < 30) := by norm_num

/-- A concrete 1×1 complex k-space and real noise map. -/
noncomputable def kC : Fin 1 → Fin 1 → ℂ := fun _ _ => 1

/-- A concrete 1×1 noise map. -/
def noiseC : Fin 1 → Fin 1 → ℝ := fun _ _ => 1

/-- Witness for C7 at SNR 50 (skip) and SNR 0 (cached-map reuse). -/
theorem C7_add_noise_witness :
    ((30:ℚ) ≤ 50) ∧ ((0:ℚ) < 30) ∧
    (∀ gen, addNoise kC 50 noiseC gen noiseC = (kC, noiseC)) ∧
    ((addNoise kC 0 noiseC false noiseC).2 = noiseC ∧
      (addNoise kC 0 noiseC false noiseC).1 = (fun i j => kC i j + (noiseC i j : ℝ)) ∧
      (addNoise (addNoise kC 0 noiseC false noiseC).1 0
          (addNoise kC 0 noiseC false noiseC).2 false noiseC).1
        = fun i j => kC i j + (noiseC i j : ℝ) + (noiseC i j : ℝ)) :=
  ⟨q_snr_facts.1, q_snr_facts.2,
    (C7_add_noise kC 50 noiseC noiseC noiseC).1 q_snr_facts.1,
    (C7_add_noise kC 0 noiseC noiseC noiseC).2 q_snr_facts.2⟩

/-- Shape-level state of an `ImageManipulators` instance: the 2D extents of
the buffers `img`, `image_display_data`, `kspace_display_data`,
`kspace_abs`, `kspacedata` and `orig_kspacedata`.  Entry values are carried
by the per-filter pure functions above, whose types `KMat m n → KMat m n`
reflect that every in-place slice/mask assignment in the source leaves the
numpy array extents untouched; the only operations in the source that change
any extent are the `ndarray.resize` calls inside `resize_arrays`. -/
structure EngineState where
  imgShape : ℕ × ℕ
  imageDisplayShape : ℕ × ℕ
  kspaceDisplayShape : ℕ × ℕ
  kspaceAbsShape : ℕ × ℕ
  kspaceShape : ℕ × ℕ
  origShape : ℕ × ℕ

/-- Construction (`__init__`): every buffer is created `zeros_like` /
`require`d from the input pixel data, so all six extents coincide. -/
def mkEngine (r c : ℕ) : EngineState :=
  ⟨(r, c), (r, c), (r, c), (r, c), (r, c), (r, c)⟩

/-- Embedding of `ImageManipulators.resize_arrays`: resizes `img`,
`image_display_data`, `kspace_display_data`, `kspace_abs` and `kspacedata`
to the given extent (the original snapshot is left alone). -/
def resizeArrays (sz : ℕ × ℕ) (s : EngineState) : EngineState :=
  { s with imgShape := sz, imageDisplayShape := sz, kspaceDisplayShape := sz,
           kspaceAbsShape := sz, kspaceShape := sz }

/-- The number of rows kept by undersampling (the row count of
`q = kspace[~mask]` reshaped to `(q.size // cols, cols)`). -/
def usKeptCount (m f : ℕ) : ℕ := (usKeptList m f).length

/-- The engine operations invoked on an `ImageManipulators` instance by the
recompute pipeline (`MainApp.image_change`) and construction. -/
inductive EngineOp where
  | resize (sz : ℕ × ℕ)
  | addNoiseOp (snr : ℚ) (gen : Bool)
  | applySpikesOp
  | applyPatchesOp
  | reducedScanOp (pct : ℚ)
  | pFourierOp (pct : ℚ) (zf : Bool)
  | highPassOp (r : ℚ)
  | lowPassOp (r : ℚ)
  | undersampleOp (factor : ℤ) (compress : Bool)
  | decreaseDCOp (pct : ℤ)
  | hammingOp
  | fillingOp (v : ℚ) (mode : ℕ)
  | prepareDisplaysOp (kscale : ℤ)
  | transformOp

/-- Effect of each engine operation on the buffer extents.  All filters act
on `kspacedata` in place through element/slice/mask assignment (shape
preserved by numpy semantics; compare the shape-preserving types of
`reducedScanPercentage`, `pFourier`, `highPassFilter`, `lowPassFilter`,
`fillingLinear`, `applySpikes` above); `prepare_displays` and
`np_fft`/`np_ifft` write into preallocated same-shaped output buffers.  The
exceptions are `resize_arrays` itself and `undersample` with the compress
flag, which collapses `kspacedata` to its kept rows by explicitly invoking
`resize_arrays`. -/
def applyOp (op : EngineOp) (s : EngineState) : EngineState :=
  match op with
  | .resize sz => resizeArrays sz s
  | .undersampleOp f cp =>
      if 1 < f then
        if cp then resizeArrays (usKeptCount s.kspaceShape.1 f.toNat, s.kspaceShape.2) s
        else s
      else s
  | .addNoiseOp _ _ => s
  | .applySpikesOp => s
  | .applyPatchesOp => s
  | .reducedScanOp _ => s
  | .pFourierOp _ _ => s
  | .highPassOp _ => s
  | .lowPassOp _ => s
  | .decreaseDCOp _ => s
  | .hammingOp => s
  | .fillingOp _ _ => s
  | .prepareDisplaysOp _ => s
  | .transformOp => s

/-- Whether an operation explicitly resizes the buffers (a direct
`resize_arrays` call, or undersample-with-compress which invokes it). -/
def opResizes (op : EngineOp) : Prop :=
  match op with
  | .resize _ => True
  | .undersampleOp f cp => 1 < f ∧ cp = true
  | _ => False

/-- The claim's invariant: the image, image display, k-space display (and
k-space magnitude scratch) buffers all share the working k-space's 2D
shape. -/
def shapesConsistent (s : EngineState) : Prop :=
  s.imgShape = s.kspaceShape ∧ s.imageDisplayShape = s.kspaceShape ∧
  s.kspaceDisplayShape = s.kspaceShape ∧ s.kspaceAbsShape = s.kspaceShape

/-- C9: the shape invariant holds after construction and is preserved by
every engine operation; the working k-space's shape is unchanged by every
operation that does not explicitly resize, and undersample-with-compress
changes it only through an explicit `resize_arrays` call. -/
theorem C9_shape_invariant :
    (∀ r c, shapesConsistent (mkEngine r c)) ∧
    (∀ op s, shapesConsistent s → shapesConsistent (applyOp op s)) ∧
    (∀ op s, ¬ opResizes op → (applyOp op s).kspaceShape = s.kspaceShape) ∧
    (∀ (f : ℤ) (cp : Bool) s, opResizes (.undersampleOp f cp) →
      applyOp (.undersampleOp f cp) s
        = resizeArrays (usKeptCount s.kspaceShape.1 f.toNat, s.kspaceShape.2) s) := by
  refine ⟨?_, ?_, ?_, ?_⟩
  · intro r c
    exact ⟨rfl, rfl, rfl, rfl⟩
  · intro op s hs
    cases op <;> try exact hs
    · exact ⟨rfl, rfl, rfl, rfl⟩
    · dsimp only [applyOp]
      split_ifs <;> first | exact ⟨rfl, rfl, rfl, rfl⟩ | exact hs
  · intro op s hop
    cases op <;> try rfl
    · exact absurd trivial hop
    · rename_i f cp
      dsimp only [applyOp]
      split_ifs with h1 h2
      · exact absurd ⟨h1, h2⟩ hop
      · rfl
      · rfl
  · intro f cp s hop
    obtain ⟨h1, h2⟩ := hop
    subst h2
    dsimp only [applyOp]
    rw [if_pos h1, if_pos rfl]

/-- Witness for C9: the invariant after constructing a 4×4 engine, after a
resize, after a non-resizing filter, and the compress-path resize on a
concrete state. -/
theorem C9_shape_invariant_witness :
    shapesConsistent (mkEngine 4 4) ∧
    shapesConsistent (applyOp (.resize (2, 4)) (mkEngine 4 4)) ∧
    (applyOp (.highPassOp 30) (mkEngine 4 4)).kspaceShape = (mkEngine 4 4).kspaceShape ∧
    applyOp (.undersampleOp 2 true) (mkEngine 4 4)
      = resizeArrays (usKeptCount (mkEngine 4 4).kspaceShape.1 (2:ℤ).toNat,
          (mkEngine 4 4).kspaceShape.2) (mkEngine 4 4) :=
  ⟨C9_shape_invariant.1 4 4,
    C9_shape_invariant.2.1 (.resize (2, 4)) (mkEngine 4 4) (C9_shape_invariant.1 4 4),
    C9_shape_invariant.2.2.1 (.highPassOp 30) (mkEngine 4 4) not_false,
    C9_shape_invariant.2.2.2 2 true (mkEngine 4 4) ⟨by decide, rfl⟩⟩

/-- The unit-circle character `e^(2πi q)` for a rational phase `q`, the
building block of the exact DFT modelling `np.fft.fft2` / `np.fft.ifft2`. -/
noncomputable def eq2pi (q : ℚ) : ℂ :=
  Complex.exp (2 * (Real.pi : ℂ) * Complex.I * (q : ℂ))

lemma eq2pi_add (a b : ℚ) : eq2pi (a + b) = eq2pi a * eq2pi b := by
  unfold eq2pi
  rw [← Complex.exp_add]
  congr 1
  push_cast
  ring

lemma eq2pi_zero : eq2pi 0 = 1 := by
  unfold eq2pi
  norm_num

lemma eq2pi_intCast (t : ℤ) : eq2pi (t : ℚ) = 1 := by
  unfold eq2pi
  have h : 2 * (Real.pi : ℂ) * Complex.I * (((t : ℚ)) : ℂ)
      = (t : ℂ) * (2 * (Real.pi : ℂ) * Complex.I) := by
    push_cast
    ring
  rw [h]
  exact Complex.exp_int_mul_two_pi_mul_I t

lemma eq2pi_nat_mul (c : ℕ) (q : ℚ) : eq2pi ((c : ℚ) * q) = eq2pi q ^ c := by
  unfold eq2pi
  rw [← Complex.exp_nat_mul]
  congr 1
  push_cast
  ring

/-- Orthogonality of the discrete characters: summing `e^(2πi t (a-b)/n)`
over `t < n` gives `n` on the diagonal and `0` off it. -/
lemma orth {n : ℕ} (a b : Fin n) :
    ∑ t : Fin n, eq2pi (((t : ℕ) : ℚ) * (((a : ℕ) : ℚ) - ((b : ℕ) : ℚ)) / n)
      = if a = b then (n : ℂ) else 0 := by
  have hn : 0 < n := a.pos
  have hnq : ((n : ℕ) : ℚ) ≠ 0 := by
    exact_mod_cast hn.ne'
  by_cases hab : a = b
  · subst hab
    rw [if_pos rfl]
    have hz : ∀ t : Fin n,
        eq2pi (((t : ℕ) : ℚ) * (((a : ℕ) : ℚ) - ((a : ℕ) : ℚ)) / n) = 1 := by
      intro t
      rw [sub_self, mul_zero, zero_div, eq2pi_zero]
    rw [Finset.sum_congr rfl (fun t _ => hz t)]
    simp
  · rw [if_neg hab]
    set q : ℚ := (((a : ℕ) : ℚ) - ((b : ℕ) : ℚ)) / n with hq
    have hterm : ∀ t : Fin n,
        eq2pi (((t : ℕ) : ℚ) * q) = eq2pi q ^ (t : ℕ) := fun t => eq2pi_nat_mul _ q
    have hxn : eq2pi q ^ n = 1 := by
      rw [← eq2pi_nat_mul n q]
      have h1 : ((n : ℕ) : ℚ) * q = (((a : ℕ) : ℤ) - ((b : ℕ) : ℤ) : ℤ) := by
        rw [hq]
        push_cast
        field_simp
      rw [h1, eq2pi_intCast]
    have hxne : eq2pi q ≠ 1 := by
      intro hx1
      obtain ⟨t, ht⟩ := Complex.exp_eq_one_iff.mp hx1
      have h2pi : (2 * (Real.pi : ℂ) * Complex.I) ≠ 0 := by
        have hpi : (Real.pi : ℂ) ≠ 0 := by
          exact_mod_cast Real.pi_ne_zero
        simp [hpi, Complex.I_ne_zero]
      have hk2 : 2 * (Real.pi : ℂ) * Complex.I * (q : ℂ)
          = 2 * (Real.pi : ℂ) * Complex.I * (t : ℂ) := by
        rw [ht]
        ring
      have hqt : (q : ℂ) = (t : ℂ) := mul_left_cancel₀ h2pi hk2
      have hqt2 : q = (t : ℚ) := by
        exact_mod_cast hqt
      have hsub : ((a : ℕ) : ℚ) - ((b : ℕ) : ℚ) = (t : ℚ) * n := by
        have := hqt2
        rw [hq] at this
        field_simp at this
        linarith [this]
      have hdvd : (n : ℤ) ∣ ((a : ℕ) : ℤ) - ((b : ℕ) : ℤ) := by
        refine ⟨t, ?_⟩
        exact_mod_cast (by linarith [hsub] : (((a : ℕ) : ℚ) - ((b : ℕ) : ℚ)) = (n : ℚ) * t)
      have habs : |((a : ℕ) : ℤ) - ((b : ℕ) : ℤ)| < n := by
        have ha := a.isLt
        have hb := b.isLt
        rw [abs_lt]
        constructor <;> omega
      have h0 : ((a : ℕ) : ℤ) - ((b : ℕ) : ℤ) = 0 := Int.eq_zero_of_abs_lt_dvd hdvd habs
      exact hab (Fin.ext (by omega))
    have hgoal : ∀ t : Fin n,
        ((t : ℕ) : ℚ) * (((a : ℕ) : ℚ) - ((b : ℕ) : ℚ)) / n = ((t : ℕ) : ℚ) * q := by
      intro t
      rw [hq, mul_div_assoc]
    rw [Finset.sum_congr rfl (fun t _ => by rw [hgoal t])]
    calc ∑ t : Fin n, eq2pi (((t : ℕ) : ℚ) * q)
        = ∑ t : Fin n, eq2pi q ^ (t : ℕ) := Finset.sum_congr rfl (fun t _ => hterm t)
      _ = ∑ i in Finset.range n, eq2pi q ^ i := Fin.sum_univ_eq_sum_range _ n
      _ = (eq2pi q ^ n - 1) / (eq2pi q - 1) := geom_sum_eq hxne n
      _ = 0 := by rw [hxn]; simp

/-- The 1D discrete Fourier transform,
`X[u] = Σ_a x[a]·e^(-2πi·u·a/n)` (numpy's `fft` convention). -/
noncomputable def dft {n : ℕ} (x : Fin n → ℂ) : Fin n → ℂ :=
  fun u => ∑ a, x a * eq2pi (-(((u : ℕ) : ℚ) * ((a : ℕ) : ℚ) / n))

/-- The 1D inverse discrete Fourier transform,
`x[a] = (1/n)·Σ_u X[u]·e^(2πi·u·a/n)` (numpy's `ifft` convention). -/
noncomputable def idft {n : ℕ} (y : Fin n → ℂ) : Fin n → ℂ :=
  fun a => (1 / (n : ℂ)) * ∑ u, y u * eq2pi (((u : ℕ) : ℚ) * ((a : ℕ) : ℚ) / n)

/-- Exact 1D inversion: `ifft(fft(x)) = x`. -/
lemma idft_dft {n : ℕ} (x : Fin n → ℂ) : idft (dft x) = x := by
  funext a
  have hn : 0 < n := a.pos
  have hnc : (n : ℂ) ≠ 0 := by
    exact_mod_cast hn.ne'
  unfold idft dft
  have step1 : ∀ u : Fin n,
      (∑ b, x b * eq2pi (-(((u:ℕ):ℚ) * ((b:ℕ):ℚ) / n)))
          * eq2pi (((u:ℕ):ℚ) * ((a:ℕ):ℚ) / n)
        = ∑ b, x b * eq2pi (((u:ℕ):ℚ) * (((a:ℕ):ℚ) - ((b:ℕ):ℚ)) / n) := by
    intro u
    rw [Finset.sum_mul]
    refine Finset.sum_congr rfl (fun b _ => ?_)
    have harg : -(((u:ℕ):ℚ) * ((b:ℕ):ℚ) / n) + ((u:ℕ):ℚ) * ((a:ℕ):ℚ) / n
        = ((u:ℕ):ℚ) * (((a:ℕ):ℚ) - ((b:ℕ):ℚ)) / n := by
      ring
    rw [mul_assoc, ← eq2pi_add, harg]
  rw [Finset.sum_congr rfl (fun u _ => step1 u), Finset.sum_comm]
  have step2 : ∀ b : Fin n,
      (∑ u : Fin n, x b * eq2pi (((u:ℕ):ℚ) * (((a:ℕ):ℚ) - ((b:ℕ):ℚ)) / n))
        = x b * (if a = b then (n:ℂ) else 0) := by
    intro b
    rw [← Finset.mul_sum, orth a b]
  rw [Finset.sum_congr rfl (fun b _ => step2 b)]
  simp only [mul_ite, mul_zero]
  rw [Finset.sum_ite_eq, if_pos (Finset.mem_univ a)]
  field_simp

/-- The inverse transform of a finite sum is the sum of the inverse
transforms. -/
lemma idft_sum {n : ℕ} {ι : Type} (s : Finset ι) (F : ι → Fin n → ℂ) (b : Fin n) :
    idft (fun v => ∑ i in s, F i v) b = ∑ i in s, idft (F i) b := by
  unfold idft
  rw [← Finset.mul_sum]
  congr 1
  rw [Finset.sum_congr rfl
    (fun v _ => Finset.sum_mul s (fun i => F i v) (eq2pi (((v:ℕ):ℚ) * ((b:ℕ):ℚ) / n)))]
  exact Finset.sum_comm

/-- The inverse transform of a pointwise right-scaled signal. -/
lemma idft_mul_const {n : ℕ} (h : Fin n → ℂ) (c : ℂ) (b : Fin n) :
    idft (fun v => h v * c) b = idft h b * c := by
  unfold idft
  rw [Finset.sum_congr rfl (fun v _ => by ring : ∀ v ∈ Finset.univ,
    h v * c * eq2pi (((v:ℕ):ℚ) * ((b:ℕ):ℚ) / n)
      = h v * eq2pi (((v:ℕ):ℚ) * ((b:ℕ):ℚ) / n) * c)]
  rw [← Finset.sum_mul]
  ring

/-- Inverse transform along one axis commutes with `dft` along the other axis. -/
lemma idft_dft_swap {m n : ℕ} (g : Fin n → Fin m → ℂ) (i' : Fin m) (b : Fin n) :
    idft (fun v => dft (g v) i') b
      = dft (fun a => idft (fun v => g v a) b) i' := by
  have h1 : (fun v => dft (g v) i')
      = fun v => ∑ a : Fin m, g v a * eq2pi (-(((i':ℕ):ℚ) * ((a:ℕ):ℚ) / m)) := rfl
  rw [h1, idft_sum]
  unfold dft
  refine Finset.sum_congr rfl (fun a _ => ?_)
  exact idft_mul_const (fun v => g v a) (eq2pi (-(((i':ℕ):ℚ) * ((a:ℕ):ℚ) / m))) b

/-- The 2D discrete Fourier transform as the composition of 1D transforms
along the two axes (numpy's `fft2`). -/
noncomputable def fft2 {m n : ℕ} (x : Fin m → Fin n → ℂ) : Fin m → Fin n → ℂ :=
  fun u v => dft (fun a => dft (x a) v) u

/-- The 2D inverse discrete Fourier transform (numpy's `ifft2`). -/
noncomputable def ifft2 {m n : ℕ} (y : Fin m → Fin n → ℂ) : Fin m → Fin n → ℂ :=
  fun a b => idft (fun u => idft (y u) b) a

/-- The composed 2D transform is the standard double sum
`X[u,v] = Σ_a Σ_b x[a,b]·e^(-2πi(ua/m + vb/n))`. -/
lemma fft2_eq_doubleSum {m n : ℕ} (x : Fin m → Fin n → ℂ) (u : Fin m) (v : Fin n) :
    fft2 x u v = ∑ a, ∑ b, x a b
      * eq2pi (-((((u:ℕ):ℚ) * ((a:ℕ):ℚ) / m) + (((v:ℕ):ℚ) * ((b:ℕ):ℚ) / n))) := by
  unfold fft2 dft
  refine Finset.sum_congr rfl (fun a _ => ?_)
  rw [Finset.sum_mul]
  refine Finset.sum_congr rfl (fun b _ => ?_)
  have harg : -(((v:ℕ):ℚ) * ((b:ℕ):ℚ) / n) + -(((u:ℕ):ℚ) * ((a:ℕ):ℚ) / m)
      = -((((u:ℕ):ℚ) * ((a:ℕ):ℚ) / m) + (((v:ℕ):ℚ) * ((b:ℕ):ℚ) / n)) := by
    ring
  rw [mul_assoc, ← eq2pi_add, harg]

/-- Exact 2D inversion: `ifft2(fft2(x)) = x`. -/
lemma ifft2_fft2 {m n : ℕ} (x : Fin m → Fin n → ℂ) : ifft2 (fft2 x) = x := by
  funext a b
  show idft (fun i' => idft (fft2 x i') b) a = x a b
  have h1 : (fun i' => idft (fft2 x i') b)
      = fun i' => dft (fun c => idft (fun v => dft (x c) v) b) i' := by
    funext i'
    exact idft_dft_swap (fun v c => dft (x c) v) i' b
  rw [h1]
  have h2 : (fun c => idft (fun v => dft (x c) v) b) = fun c => x c b := by
    funext c
    have : (fun v => dft (x c) v) = dft (x c) := rfl
    rw [this, idft_dft]
  rw [h2]
  have h3 : (fun i' => dft (fun c => x c b) i') = dft (fun c => x c b) := rfl
  rw [h3, idft_dft]

lemma wrap_val {m : ℕ} (i : Fin m) (s : ℤ) :
    ((wrap i s : Fin m) : ℤ) = ((i : ℤ) - s) % m := by
  have hm : 0 < m := i.pos
  show (((((i:ℤ) - s) % (m:ℤ)).toNat : ℕ) : ℤ) = ((i:ℤ) - s) % m
  rw [Int.toNat_of_nonneg (Int.emod_nonneg _ (by exact_mod_cast hm.ne' : (m:ℤ) ≠ 0))]

lemma wrap_wrap {m : ℕ} (i : Fin m) (s t : ℤ) : wrap (wrap i s) t = wrap i (t + s) := by
  apply Fin.ext
  have h : ((wrap (wrap i s) t : Fin m) : ℤ) = ((wrap i (t + s) : Fin m) : ℤ) := by
    rw [wrap_val, wrap_val, wrap_val]
    conv_lhs => rw [Int.sub_emod]
    conv_rhs => rw [show (i:ℤ) - (t + s) = ((i:ℤ) - s) - t by ring, Int.sub_emod]
    rw [Int.emod_emod_of_dvd _ dvd_rfl]
  exact_mod_cast h

lemma wrap_zero {m : ℕ} (i : Fin m) : wrap i 0 = i := by
  apply Fin.ext
  have h : ((wrap i 0 : Fin m) : ℤ) = (i : ℤ) := by
    rw [wrap_val, sub_zero]
    exact Int.emod_eq_of_lt (by exact_mod_cast Nat.zero_le _) (by exact_mod_cast i.isLt)
  exact_mod_cast h

/-- Embedding of `np.fft.fftshift` on both axes: roll by `(rows//2, cols//2)`, bringing
the zero-frequency term to the array centre. -/
def fftshift2 {α : Type} {m n : ℕ} (x : Fin m → Fin n → α) : Fin m → Fin n → α :=
  fun i j => x (wrap i ((m / 2 : ℕ) : ℤ)) (wrap j ((n / 2 : ℕ) : ℤ))

/-- Embedding of `np.fft.ifftshift` on both axes: roll by `(-(rows//2), -(cols//2))`,
the exact inverse of `fftshift` for any (odd or even) extent. -/
def ifftshift2 {α : Type} {m n : ℕ} (x : Fin m → Fin n → α) : Fin m → Fin n → α :=
  fun i j => x (wrap i (-((m / 2 : ℕ) : ℤ))) (wrap j (-((n / 2 : ℕ) : ℤ)))

lemma ifftshift2_fftshift2 {α : Type} {m n : ℕ} (x : Fin m → Fin n → α) :
    ifftshift2 (fftshift2 x) = x := by
  funext i j
  show x (wrap (wrap i (-((m / 2 : ℕ) : ℤ))) ((m / 2 : ℕ) : ℤ))
      (wrap (wrap j (-((n / 2 : ℕ) : ℤ))) ((n / 2 : ℕ) : ℤ)) = x i j
  rw [wrap_wrap, wrap_wrap]
  simp [wrap_zero]

lemma fftshift2_ifftshift2 {α : Type} {m n : ℕ} (x : Fin m → Fin n → α) :
    fftshift2 (ifftshift2 x) = x := by
  funext i j
  show x (wrap (wrap i ((m / 2 : ℕ) : ℤ)) (-((m / 2 : ℕ) : ℤ)))
      (wrap (wrap j ((n / 2 : ℕ) : ℤ)) (-((n / 2 : ℕ) : ℤ))) = x i j
  rw [wrap_wrap, wrap_wrap]
  simp [wrap_zero]

/-- Embedding of `ImageManipulators.np_fft`:
`out[:] = fftshift(fft2(ifftshift(img)))` on a real image. -/
noncomputable def np_fft {m n : ℕ} (img : Fin m → Fin n → ℝ) : Fin m → Fin n → ℂ :=
  fftshift2 (fft2 (ifftshift2 (fun i j => (img i j : ℂ))))

/-- Embedding of `ImageManipulators.np_ifft`:
`np.absolute(fftshift(ifft2(ifftshift(kspace))), out=out)` — the centred
inverse transform followed by the complex magnitude. -/
noncomputable def np_ifft {m n : ℕ} (k : Fin m → Fin n → ℂ) : Fin m → Fin n → ℝ :=
  fun i j => Complex.abs (fftshift2 (ifft2 (ifftshift2 k)) i j)

/-- The full round trip reproduces the pointwise ABSOLUTE VALUE of the
image, for every 2D shape (odd or even on each axis). -/
lemma np_roundtrip_abs {m n : ℕ} (img : Fin m → Fin n → ℝ) :
    np_ifft (np_fft img) = fun i j => |img i j| := by
  funext i j
  unfold np_ifft np_fft
  rw [ifftshift2_fftshift2, ifft2_fft2, fftshift2_ifftshift2]
  exact Complex.abs_ofReal _

/-- C1 (amended): for every NONNEGATIVE real 2D image — of any shape,
odd×odd, even×even or odd×even — the inverse transform of the forward
transform reproduces the image exactly (hence within any floating-point
tolerance).  For images with negative samples the final magnitude step
makes exact reproduction impossible. -/
theorem C1_roundtrip {m n : ℕ} (img : Fin m → Fin n → ℝ)
    (hpos : ∀ i j, 0 ≤ img i j) :
    np_ifft (np_fft img) = img := by
  rw [np_roundtrip_abs]
  funext i j
  exact abs_of_nonneg (hpos i j)

/-- A concrete nonnegative 3×2 (odd×even) image. -/
def imgPos : Fin 3 → Fin 2 → ℝ := fun i j => ((i : ℕ) : ℝ) + ((j : ℕ) : ℝ)

/-- Nonnegativity of the concrete image. -/
lemma imgPos_nonneg : ∀ (i : Fin 3) (j : Fin 2), 0 ≤ imgPos i j := by
  intro i j
  unfold imgPos
  positivity

/-- Witness for C1 on the odd×even image `imgPos`. -/
theorem C1_roundtrip_witness :
    (∀ (i : Fin 3) (j : Fin 2), 0 ≤ imgPos i j) ∧ np_ifft (np_fft imgPos) = imgPos :=
  ⟨imgPos_nonneg, C1_roundtrip imgPos imgPos_nonneg⟩

/-- A concrete 1×1 image with a negative sample. -/
def imgNeg : Fin 1 → Fin 1 → ℝ := fun _ _ => -1

/-- Counterexample to C1 as stated: the all-`-1` image comes back as the
all-`1` image (the magnitude step flips the sign), so the round trip does
not reproduce a real image with negative samples within any tolerance. -/
theorem C1_counterexample :
    np_ifft (np_fft imgNeg) ⟨0, Nat.one_pos⟩ ⟨0, Nat.one_pos⟩ = 1 ∧
    imgNeg ⟨0, Nat.one_pos⟩ ⟨0, Nat.one_pos⟩ = -1 ∧ ((1 : ℝ) ≠ -1) := by
  refine ⟨?_, rfl, by norm_num⟩
  rw [np_roundtrip_abs]
  norm_num [imgNeg]
